import Mathlib

/-!
Verification of the retrieval fusion and routing engine of the
rag-code-assistant repository: a shallow embedding in Lean 4 of
`src/retrieval/query_classifier.py`, `src/retrieval/hybrid_search.py`,
`src/retrieval/adaptive_search.py`, `src/retrieval/bm25_search.py`,
`src/retrieval/reranker.py`, `src/retrieval/embedder.py` and the
retrieval-relevant slice of `src/generation/rag_pipeline.py`, together
with theorems settling the specification claims about them.

Scores are modelled with `ℚ` (the Python code uses floats only as exact
small rationals in the claims at issue); Python dicts in insertion order
are modelled as association lists; a raised Python exception is modelled
as `Except.error`.
-/

namespace RagCode

/-! ## Python string primitives -/

/-- `str.strip()`: drop leading and trailing whitespace. -/
def pyStrip (s : String) : String :=
  ⟨((s.toList.dropWhile Char.isWhitespace).reverse.dropWhile Char.isWhitespace).reverse⟩

/-- Helper for `str.split()`: accumulate maximal runs of non-whitespace. -/
def pyWordsAux : List Char → List Char → List (List Char)
  | [], acc => if acc.isEmpty then [] else [acc.reverse]
  | c :: t, acc =>
    if c.isWhitespace then
      if acc.isEmpty then pyWordsAux t [] else acc.reverse :: pyWordsAux t []
    else pyWordsAux t (c :: acc)

/-- `str.split()` with no argument: words separated by whitespace runs. -/
def pySplit (s : String) : List String :=
  (pyWordsAux s.toList []).map (fun l => ⟨l⟩)

/-- Boolean prefix test on character lists. -/
def isPrefOf : List Char → List Char → Bool
  | [], _ => true
  | _ :: _, [] => false
  | a :: as, b :: bs => a == b && isPrefOf as bs

/-- Helper for the Python `in` substring test. -/
def containsSubAux (n : List Char) : List Char → Bool
  | [] => n.isEmpty
  | c :: t => isPrefOf n (c :: t) || containsSubAux n t

/-- Python `needle in hay` on strings: substring containment. -/
def containsSub (needle hay : String) : Bool :=
  containsSubAux needle.toList hay.toList

/-- The regex search `[a-z][A-Z]`: some lowercase letter immediately
followed by an uppercase letter. -/
def hasCamel : List Char → Bool
  | a :: b :: t => (a.isLower && b.isUpper) || hasCamel (b :: t)
  | _ => false

/-- `str.lower()` (ASCII, as produced by Python on these inputs). -/
def pyLower (s : String) : String :=
  ⟨s.toList.map Char.toLower⟩

/-- `str.endswith(suffix)`. -/
def pyEndsWith (s suffix : String) : Bool :=
  isPrefOf suffix.toList.reverse s.toList.reverse

/-! ## Query classifier (`src/retrieval/query_classifier.py`) -/

/-- The `QueryType` enum. -/
inductive QueryType
  | SPECIFIC_TERM
  | SEMANTIC
  | CONCEPT
  | CODE_PATTERN
deriving DecidableEq, Repr

/-- `self.semantic_indicators` from `QueryClassifier.__init__`. -/
def semantic_indicators : List String :=
  ["how to", "how do", "how can", "how should",
   "what is", "what are", "what does",
   "why does", "why is", "why should",
   "when to", "when should", "where to",
   "where can", "best way", "explain", "guide", "tutorial"]

/-- `self.code_patterns` from `QueryClassifier.__init__`. -/
def code_patterns : List String :=
  ["async", "await", "def", "class",
   "decorator", "context manager", "generator",
   "lambda", "comprehension", "iterator"]

/-- `self.python_specifics` from `QueryClassifier.__init__`. -/
def python_specifics : List String :=
  ["Exception", "Error", "Model", "Router",
   "Request", "Response", "Handler", "Middleware"]

/-- `QueryClassifier._is_specific_term`. -/
def is_specific_term (query : String) : Bool :=
  let words := pySplit query
  if words.length ≤ 2 then
    hasCamel query.toList
    || (query.toList.contains '_' && !(query.toList.contains ' '))
    || python_specifics.any (fun suffix => pyEndsWith query suffix)
  else false

/-- `QueryClassifier._is_semantic_query`. -/
def is_semantic_query (query : String) : Bool :=
  let query_lower := pyLower query
  semantic_indicators.any (fun indicator => containsSub indicator query_lower)
  || decide ((pySplit query).length > 6)
  || query.toList.contains '?'

/-- `QueryClassifier._is_code_pattern`. -/
def is_code_pattern (query : String) : Bool :=
  let query_lower := pyLower query
  code_patterns.any (fun pattern => containsSub pattern query_lower)

/-- `QueryClassifier.classify`: strip, then test the rules in fixed
priority order, first match wins, defaulting to `CONCEPT`. -/
def classify (query : String) : QueryType :=
  let query := pyStrip query
  if is_specific_term query then .SPECIFIC_TERM
  else if is_semantic_query query then .SEMANTIC
  else if is_code_pattern query then .CODE_PATTERN
  else .CONCEPT

/-- `SearchConfig`: the dict returned by `QueryClassifier.get_search_config`. -/
structure SearchConfig where
  use_bm25 : Bool
  use_vector : Bool
  bm25_weight : ℚ
  vector_weight : ℚ
  use_expansion : Bool
  use_reranking : Bool
deriving DecidableEq, Repr

/-- `QueryClassifier.get_search_config`. -/
def get_search_config : QueryType → SearchConfig
  | .SPECIFIC_TERM => ⟨true, false, 1, 0, false, false⟩
  | .SEMANTIC => ⟨true, true, 1, 1, false, true⟩
  | .CONCEPT => ⟨true, true, 1, 1, true, true⟩
  | .CODE_PATTERN => ⟨true, true, 7/10, 1, false, true⟩

/-! ## Rank fusion (`src/retrieval/hybrid_search.py`) -/

/-- A retrieved chunk dict: the payload fields used by the core
(per-source `score`/`distance` fields play no role in fusion). -/
structure Doc where
  id : String
  text : String
  metadata : List (String × String)
deriving DecidableEq, Repr

/-- A fused result dict: chunk payload plus the score bag written by
`HybridSearch._merge_results` and (optionally) `Reranker.rerank`. -/
structure Scored where
  chunk : Doc
  rrf_score : ℚ
  bm25_rank : Option ℕ
  vector_rank : Option ℕ
  rerank_score : Option ℚ
deriving DecidableEq, Repr

/-- The per-id working entry of the `scores` dict in `_merge_results`. -/
structure MergeEntry where
  rrf_score : ℚ
  bm25_rank : Option ℕ
  vector_rank : Option ℕ
  chunk : Doc
deriving DecidableEq, Repr

/-- Lookup in an insertion-ordered association list (a Python dict). -/
def alistFind (key : String) : List (String × α) → Option α
  | [] => none
  | p :: t => if p.1 = key then some p.2 else alistFind key t

/-- Update the value at a key of an association list in place
(Python dict assignment to an existing key keeps its position). -/
def alistUpdate (key : String) (f : α → α) : List (String × α) → List (String × α)
  | [] => []
  | p :: t => (if p.1 = key then (p.1, f p.2) else p) :: alistUpdate key f t

/-- `HybridSearch._rrf_score` scaled: `1.0 / (rank + k)`. -/
def rrf_score (k rank : ℕ) : ℚ :=
  1 / ((rank : ℚ) + (k : ℚ))

/-- One iteration of the `bm25_results` loop of `_merge_results`: create
the entry if absent, then unconditionally add the weighted RRF
contribution and set `bm25_rank`. -/
def bm25Step (k : ℕ) (bm25_weight : ℚ) (scores : List (String × MergeEntry))
    (p : ℕ × Doc) : List (String × MergeEntry) :=
  let rrf := rrf_score k p.1 * bm25_weight
  let scores :=
    match alistFind p.2.id scores with
    | none => scores ++ [(p.2.id, ⟨0, some p.1, none, p.2⟩)]
    | some _ => scores
  alistUpdate p.2.id
    (fun d => { d with rrf_score := d.rrf_score + rrf, bm25_rank := some p.1 }) scores

/-- One iteration of the `vector_results` loop of `_merge_results`.
Faithful to the source: the weighted RRF contribution is added only in
the `else` branch, so an id first seen in the vector list keeps
`rrf_score = 0`. -/
def vectorStep (k : ℕ) (vector_weight : ℚ) (scores : List (String × MergeEntry))
    (p : ℕ × Doc) : List (String × MergeEntry) :=
  let rrf := rrf_score k p.1 * vector_weight
  match alistFind p.2.id scores with
  | none => scores ++ [(p.2.id, ⟨0, none, some p.1, p.2⟩)]
  | some _ =>
    alistUpdate p.2.id
      (fun d => { d with rrf_score := d.rrf_score + rrf, vector_rank := some p.1 }) scores

/-- The descending-`rrf_score` order used by the two Python stable
sorts (`list.sort(key=..., reverse=True)`). -/
def rrfGE (a b : Scored) : Prop :=
  b.rrf_score ≤ a.rrf_score

instance : DecidableRel rrfGE := fun a b => inferInstanceAs (Decidable (_ ≤ _))

/-- `HybridSearch._merge_results`: fold both rank lists into the `scores`
dict, flatten, and sort by `rrf_score` descending.  Python `list.sort`
with `reverse=True` is stable, and a stable sort's output is uniquely
determined by the key order and the input order, so the stable
`List.insertionSort` models it exactly. -/
def merge_results (k : ℕ) (bm25_results vector_results : List Doc)
    (bm25_weight vector_weight : ℚ) : List Scored :=
  let scores := bm25_results.enum.foldl (bm25Step k bm25_weight) []
  let scores := vector_results.enum.foldl (vectorStep k vector_weight) scores
  let merged := scores.map fun p =>
    Scored.mk p.2.chunk p.2.rrf_score p.2.bm25_rank p.2.vector_rank none
  merged.insertionSort rrfGE

/-! ## Hybrid search orchestration (`HybridSearch.search`) -/

/-- The cross-variant accumulation step in `HybridSearch.search`: a new
id is inserted; an existing id is replaced only when the incoming
occurrence has strictly greater `rrf_score`. -/
def variantInsert (all_results : List (String × Scored)) (result : Scored) :
    List (String × Scored) :=
  match alistFind result.chunk.id all_results with
  | none => all_results ++ [(result.chunk.id, result)]
  | some existing =>
    if existing.rrf_score < result.rrf_score then
      alistUpdate result.chunk.id (fun _ => result) all_results
    else all_results

/-- The collaborators and configuration held by a `HybridSearch`
instance.  Optional collaborators (`reranker`, `query_expander`,
`query_classifier`) are modelled by a presence flag plus a function; the
reranker may raise, modelled by `Except.error`. -/
structure HybridModel where
  bm25_search : String → ℕ → List Doc
  vector_search : String → ℕ → List Doc
  hasReranker : Bool
  rerankFn : String → List Scored → Option ℕ → Except Unit (List Scored)
  hasExpander : Bool
  expandFn : String → List String
  hasClassifier : Bool
  k : ℕ

/-- The inline default config dict in `HybridSearch.search`'s `else`
branch. -/
def default_config : SearchConfig :=
  ⟨true, true, 1, 1, true, true⟩

/-- The cross-variant accumulation of `HybridSearch.search`: each
variant's merged list is folded into the `all_results` dict in turn. -/
def variant_accumulate (variants : List (List Scored)) : List (String × Scored) :=
  variants.foldl (fun all_results merged => merged.foldl variantInsert all_results) []

/-- The per-variant retrieval and rank fusion performed inside the
`for q in queries` loop of `HybridSearch.search`. -/
def variant_merged (H : HybridModel) (config : SearchConfig) (n_results : ℕ)
    (q : String) : List Scored :=
  let retrieve_k := if config.use_reranking then n_results * 2 else n_results
  let bm25_results := if config.use_bm25 then H.bm25_search q retrieve_k else []
  let vector_results := if config.use_vector then H.vector_search q retrieve_k else []
  merge_results H.k bm25_results vector_results config.bm25_weight config.vector_weight

/-- The sorted pre-rerank fused list built by `HybridSearch.search`
(steps up to and including `final.sort(...)`). -/
def hybrid_fused (H : HybridModel) (config : SearchConfig) (query : String)
    (n_results : ℕ) : List Scored :=
  let queries := if config.use_expansion && H.hasExpander then H.expandFn query else [query]
  let all_results := variant_accumulate (queries.map (variant_merged H config n_results))
  (all_results.map Prod.snd).insertionSort rrfGE

/-- `HybridSearch.search`.  Note a fact the claims turn on: the source
declares the parameter `use_reranker` but never reads it — reranking is
governed solely by `config['use_reranking']`.  A reranker exception
(`Except.error`) propagates: the call has no try/except. -/
def hybrid_search (H : HybridModel) (query : String) (n_results : ℕ)
    (use_classifier use_reranker : Bool) : Except Unit (List Scored) :=
  let config :=
    if use_classifier && H.hasClassifier then get_search_config (classify query)
    else default_config
  let final := hybrid_fused H config query n_results
  if config.use_reranking && H.hasReranker && decide (0 < final.length) then
    H.rerankFn query final (some n_results)
  else
    .ok (final.take n_results)

/-! ## BM25 lexical index (`src/retrieval/bm25_search.py`) -/

/-- A character matched by the regex class `\w` (ASCII). -/
def isWordChar (c : Char) : Bool :=
  c.isAlphanum || c == '_'

/-- Maximal `\w+` runs, for `re.findall(r'\b\w+\b', text)`. -/
def wordRunsAux : List Char → List Char → List (List Char)
  | [], acc => if acc.isEmpty then [] else [acc.reverse]
  | c :: t, acc =>
    if isWordChar c then wordRunsAux t (c :: acc)
    else if acc.isEmpty then wordRunsAux t [] else acc.reverse :: wordRunsAux t []

/-- `BM25Search._tokenize`: lowercase, split into word runs, keep tokens
of length ≥ 2. -/
def bm25_tokenize (text : String) : List String :=
  let lowered := pyLower text
  (((wordRunsAux lowered.toList []).map fun l => (⟨l⟩ : String)).filter
    fun t => decide (2 ≤ t.length))

/-- The state of a `BM25Search` instance.  `bm25` is `None` until
`index_documents` builds it; the built object is modelled by its
tokenized corpus (scoring itself belongs to the external `rank_bm25`
collaborator). -/
structure BM25State where
  bm25 : Option (List (List String))
  chunks : List Doc
  chunk_ids : List String
deriving Repr

/-- `BM25Search.__init__`: sets `self.bm25 = None`, empty corpus. -/
def bm25_init : BM25State :=
  ⟨none, [], []⟩

/-- `BM25Search.index_documents`: a no-op on an empty batch, otherwise
stores the chunks and builds the index. -/
def index_documents (s : BM25State) (chunks : List Doc) : BM25State :=
  if chunks.isEmpty then s
  else ⟨some (chunks.map fun c => bm25_tokenize c.text), chunks, chunks.map (·.id)⟩

/-- `hasattr(self, 'bm25')`: `__init__` always sets the attribute (to
`None`), so this is `True` for every reachable state. -/
def hasattr_bm25 (_ : BM25State) : Bool :=
  true

/-- A raised Python exception relevant to this core. -/
inductive PyErr
  | attributeError
deriving DecidableEq, Repr

/-- `numpy.argsort`: indices ordered by ascending score (tie order is
not claimed by the spec; the stable sort is one faithful choice). -/
def argsort (scores : List ℚ) : List ℕ :=
  (List.range scores.length).insertionSort fun i j => scores.getD i 0 ≤ scores.getD j 0

/-- Python slice `l[-k:]` for a nonnegative `k` (note `l[-0:]` is the
whole list). -/
def pySliceLast (l : List α) (k : ℕ) : List α :=
  if k = 0 then l else l.drop (l.length - k)

/-- A default chunk used only to totalise indexed reads that the source
performs on indices known to be in range. -/
def defaultDoc : Doc :=
  ⟨"", "", []⟩

/-- `BM25Search.search`.  Faithful to the source: the `hasattr` guard
never fires (the attribute always exists), so on an unbuilt index the
call reaches `self.bm25.get_scores` with `self.bm25 = None` and raises
`AttributeError`.  `get_scores` of the external `rank_bm25` collaborator
is a parameter. -/
def bm25_search (get_scores : List (List String) → List String → List ℚ)
    (s : BM25State) (query : String) (top_k : ℕ) : Except PyErr (List Doc) :=
  if !hasattr_bm25 s then .ok []
  else
    match s.bm25 with
    | none => .error .attributeError
    | some idx =>
      let tokenized_query := bm25_tokenize query
      let scores := get_scores idx tokenized_query
      let top_indices := (pySliceLast (argsort scores) top_k).reverse
      .ok (((top_indices.filter fun i => decide (0 < scores.getD i 0)).map fun i =>
        Doc.mk (s.chunk_ids.getD i "") (s.chunks.getD i defaultDoc).text
          (s.chunks.getD i defaultDoc).metadata))

/-! ## Reranker (`src/retrieval/reranker.py`) -/

/-- Python `s[:n]` on a string. -/
def pyStrTake (s : String) (n : ℕ) : String :=
  ⟨s.toList.take n⟩

/-- Python `sep.join(parts)`. -/
def joinSep (sep : String) : List String → String
  | [] => ""
  | [x] => x
  | x :: xs => x ++ sep ++ joinSep sep xs

/-- `Reranker._create_pairs`: one `(query, context)` pair per result,
the context assembled from the metadata fields present. -/
def create_pairs (query : String) (results : List Scored) : List (String × String) :=
  results.map fun result =>
    let metadata := result.chunk.metadata
    let context_parts : List String :=
      (match alistFind "function" metadata with
        | some f => [f] | none => [])
      ++ (match alistFind "file" metadata with
        | some f => ["file: " ++ f] | none => [])
      ++ (match alistFind "signature" metadata with
        | some sg => ["sig: " ++ sg] | none => [])
      ++ (match alistFind "docstring" metadata with
        | some d => if d = "" then [] else ["doc: " ++ pyStrTake d 100] | none => [])
      ++ (match alistFind "class" metadata with
        | some c => ["class: " ++ c] | none => [])
    (query, joinSep " | " context_parts)

/-- The descending-`rerank_score` order of the Python stable
`sorted(results, key=..., reverse=True)` in `Reranker.rerank` (every
sorted element carries a just-assigned score, so the `getD` default is
never consulted there). -/
def rerankGE (a b : Scored) : Prop :=
  b.rerank_score.getD 0 ≤ a.rerank_score.getD 0

instance : DecidableRel rerankGE := fun a b => inferInstanceAs (Decidable (_ ≤ _))

/-- `Reranker.rerank`, value-level model.  The cross-encoder
`self.model.predict` on the batched pairs is modelled by a per-pair
scoring function `predict`; `if top_k:` treats both `None` and `0` as
falsy. -/
def rerank (predict : String × String → ℚ) (query : String)
    (results : List Scored) (top_k : Option ℕ) : List Scored :=
  if results.isEmpty then []
  else
    let pairs := create_pairs query results
    let scores := pairs.map predict
    let results := (results.zip scores).map fun p => { p.1 with rerank_score := some p.2 }
    let reranked := results.insertionSort rerankGE
    match top_k with
    | some t => if t ≠ 0 then reranked.take t else reranked
    | none => reranked

/-- A default result record, used only to totalise heap reads. -/
def defaultScored : Scored :=
  ⟨defaultDoc, 0, none, none, none⟩

/-- `Reranker.rerank`, heap-level model for the in-place mutation of the
caller's dicts: `store` is the heap of dict objects, `results` the list
of addresses passed in.  Returns the updated heap and the addresses of
the returned list (the same objects, reordered and truncated). -/
def rerank_heap (predict : String × String → ℚ) (query : String)
    (store : List Scored) (results : List ℕ) (top_k : Option ℕ) :
    List Scored × List ℕ :=
  if results.isEmpty then (store, [])
  else
    let pairs := create_pairs query (results.map fun p => store.getD p defaultScored)
    let scores := pairs.map predict
    let store' := (results.zip scores).foldl
      (fun st pr => st.set pr.1 { st.getD pr.1 defaultScored with rerank_score := some pr.2 })
      store
    let reranked := results.insertionSort fun a b =>
      (store'.getD b defaultScored).rerank_score.getD 0
        ≤ (store'.getD a defaultScored).rerank_score.getD 0
    let reranked :=
      match top_k with
      | some t => if t ≠ 0 then reranked.take t else reranked
      | none => reranked
    (store', reranked)

/-! ## Embedding cache (`src/retrieval/embedder.py`) -/

/-- `Embedder._get_text_hash`: `hashlib.md5(text).hexdigest()` is a pure
content key, modelled as the injective identity key on the text. -/
def text_hash (t : String) : String :=
  t

/-- Python dict assignment `cache[k] = v`: update in place if the key
exists, else append (insertion order preserved). -/
def dictInsert (cache : List (String × V)) (k : String) (v : V) : List (String × V) :=
  match alistFind k cache with
  | some _ => alistUpdate k (fun _ => v) cache
  | none => cache ++ [(k, v)]

/-- The mutable state of an `Embedder`: the cache dict (insertion
order) and its bound. -/
structure EmbedderState (V : Type) where
  cache : List (String × V)
  cache_size : ℕ

/-- `Embedder._update_cache`: when the cache is full, evict the
first-inserted entry (`next(iter(self.cache))`), then insert.  (The
source would raise `StopIteration` for `cache_size = 0`, a state the
constructor never produces; theorems assume `1 ≤ cache_size`.) -/
def update_cache (st : EmbedderState V) (h : String) (v : V) : EmbedderState V :=
  let cache := if st.cache_size ≤ st.cache.length then st.cache.drop 1 else st.cache
  ⟨dictInsert cache h v, st.cache_size⟩

/-- The `np.zeros` buffer filled by index: `buf[i] = v` for each update. -/
def scatterSet (init : List V) (updates : List (ℕ × V)) : List V :=
  updates.foldl (fun acc p => acc.set p.1 p.2) init

/-- `Embedder.embed` on a list of texts (a single string is wrapped into
a one-element list by the source).  The underlying
`self.model.encode` is modelled by a per-text embedding `enc`; the third
component counts how many (batched) model calls were issued.  Returns
`(embeddings in input order, new state, model calls)`. -/
def embed (zero : V) (enc : String → V) (st : EmbedderState V)
    (texts : List String) : List V × EmbedderState V × ℕ :=
  let idx := texts.enum
  let cached_embeddings := idx.filterMap fun p =>
    (alistFind (text_hash p.2) st.cache).map fun v => (p.1, v)
  let uncached := idx.filter fun p => (alistFind (text_hash p.2) st.cache).isNone
  let uncached_texts := uncached.map Prod.snd
  let uncached_indices := uncached.map Prod.fst
  let new_embeddings := uncached_texts.map enc
  let calls := if uncached_texts.isEmpty then 0 else 1
  let st' := (uncached_texts.zip new_embeddings).foldl
    (fun s p => update_cache s (text_hash p.1) p.2) st
  let all_embeddings := scatterSet (List.replicate texts.length zero)
    (cached_embeddings ++ uncached_indices.zip new_embeddings)
  (all_embeddings, st', calls)

/-! ## Adaptive router (`src/retrieval/adaptive_search.py`) -/

/-- The `how_to_indicators` list of `AdaptiveSearch._is_how_to_query`. -/
def how_to_indicators : List String :=
  ["how to", "how do", "how can", "how should",
   "how would", "how does", "how will"]

/-- `AdaptiveSearch._is_how_to_query`. -/
def is_how_to_query (query : String) : Bool :=
  how_to_indicators.any fun indicator => containsSub indicator query

/-- `AdaptiveSearch._is_single_term`. -/
def is_single_term (query : String) : Bool :=
  let words := pySplit query
  if words.length = 1 then true
  else if words.length = 2 then
    let common_prefixes : List String := ["api", "http", "web", "background", "file"]
    words.any fun w => common_prefixes.contains (pyLower w)
  else false

/-- The local `code_patterns` list of `AdaptiveSearch._is_complex_query`
(distinct from the classifier's list). -/
def adaptive_code_patterns : List String :=
  ["async", "await", "decorator", "pattern",
   "context manager", "generator", "function",
   "handler", "middleware", "lifecycle",
   "injection", "validation"]

/-- `AdaptiveSearch._is_complex_query`. -/
def is_complex_query (query : String) : Bool :=
  if adaptive_code_patterns.any (fun pattern => containsSub pattern query) then true
  else
    let words := pySplit query
    decide (2 ≤ words.length ∧ words.length ≤ 4)

/-- `AdaptiveSearch._determine_route`: first match wins in the order
how-to, single-term, complex, default. -/
def determine_route (query : String) : String :=
  if is_how_to_query query then "how_to"
  else if is_single_term query then "specific_term"
  else if is_complex_query query then "complex"
  else "default"

/-- The collaborators of an `AdaptiveSearch` instance. -/
structure AdaptiveModel where
  bm25_search : String → ℕ → List Doc
  vector_search : String → ℕ → List Doc
  hasReranker : Bool
  rerankFn : String → List Scored → Option ℕ → Except Unit (List Scored)

/-- The `HybridSearch` instance built in `AdaptiveSearch.__init__`: no
query expander, no query classifier, default `k = 30`. -/
def adaptive_hybrid (A : AdaptiveModel) : HybridModel :=
  ⟨A.bm25_search, A.vector_search, A.hasReranker, A.rerankFn,
   false, (fun q => [q]), false, 30⟩

/-- `AdaptiveSearch.search` returns vector-store dicts on the
`specific_term` route and hybrid fused dicts otherwise. -/
inductive AdaptiveOutput
  | fromVector (results : List Doc)
  | fromHybrid (results : List Scored)
deriving DecidableEq, Repr

/-- `AdaptiveSearch.search`: lowercase and strip the query, route it,
then dispatch.  The hybrid calls pass `use_reranker` exactly as the
source does (an argument `HybridSearch.search` never reads). -/
def adaptive_search (A : AdaptiveModel) (query : String) (n_results : ℕ) :
    Except Unit AdaptiveOutput :=
  let query_lower := pyStrip (pyLower query)
  let route := determine_route query_lower
  if route = "how_to" then
    (hybrid_search (adaptive_hybrid A) query n_results true false).map .fromHybrid
  else if route = "specific_term" then
    .ok (.fromVector (A.vector_search query n_results))
  else if route = "complex" then
    if A.hasReranker then
      (hybrid_search (adaptive_hybrid A) query n_results true true).map .fromHybrid
    else
      (hybrid_search (adaptive_hybrid A) query n_results true false).map .fromHybrid
  else
    (hybrid_search (adaptive_hybrid A) query n_results true false).map .fromHybrid

/-! ## Retrieval slice of `RAGPipeline.query`
(`src/generation/rag_pipeline.py`)

Only the retrieval-relevant control flow is modelled: question
validation, truncation, the search call with its exception handler, and
the no-results check.  The generation stage and the wall-clock timeout
are out of scope; the result is the pair (retrieved chunks, error
code). -/

/-- `RAGPipeline.query`, retrieval slice.  `search` stands for
`self.search.search`; a raised search exception is `Except.error`. -/
def rag_query (search : String → ℕ → Except Unit (List Scored))
    (question : String) (n_results : ℕ) : List Scored × Option String :=
  if question = "" || pyStrip question = "" then ([], some "empty_query")
  else
    let question := if 1000 < question.length then ⟨question.toList.take 1000⟩ else question
    match search question n_results with
    | .error _ => ([], some "retrieval_error")
    | .ok [] => ([], some "no_results")
    | .ok chunks => (chunks, none)

/-! ## Concrete fixtures for the claim theorems -/

/-- A fixture chunk. -/
def docA : Doc :=
  ⟨"A", "textA", [("function", "fa")]⟩

/-- A second fixture chunk. -/
def docB : Doc :=
  ⟨"B", "textB", [("function", "fb")]⟩

/-- A hybrid instance with only a dense hit and no optional
collaborators. -/
def H_dense : HybridModel :=
  ⟨(fun _ _ => []), (fun _ _ => [docA]), false, (fun _ l _ => .ok l),
   false, (fun q => [q]), false, 30⟩

/-- A hybrid instance whose reranker always raises. -/
def H_failing_reranker : HybridModel :=
  ⟨(fun _ _ => []), (fun _ _ => [docA]), true, (fun _ _ _ => .error ()),
   false, (fun q => [q]), false, 30⟩

/-- An adaptive instance whose reranker always raises. -/
def A_failing_reranker : AdaptiveModel :=
  ⟨(fun _ _ => []), (fun _ _ => [docA]), true, (fun _ _ _ => .error ())⟩

/-- An adaptive instance whose reranker is the modelled `Reranker` with
a constant cross-encoder. -/
def A_const_reranker : AdaptiveModel :=
  ⟨(fun _ _ => []), (fun _ _ => [docA]), true,
   (fun q l t => .ok (rerank (fun _ => 7) q l t))⟩

/-- The invariant threaded through the cross-variant fold of
`HybridSearch.search`: `acc` is the `all_results` dict after processing
the occurrences `occs`; keys are unique, every stored value is one of
the processed occurrences with a matching id and a maximal
`rrf_score` among them, and every processed id is present. -/
def accInv (acc : List (String × Scored)) (occs : List Scored) : Prop :=
  ((acc.map Prod.fst).Nodup)
  ∧ (∀ p ∈ acc, p.2.chunk.id = p.1)
  ∧ (∀ id v, alistFind id acc = some v →
      v ∈ occs ∧ ∀ o ∈ occs, o.chunk.id = id → o.rrf_score ≤ v.rrf_score)
  ∧ (∀ o ∈ occs, (alistFind o.chunk.id acc).isSome)

/-! ## General lemmas on association lists -/

theorem alistUpdate_nil (key : String) (f : α → α) : alistUpdate key f [] = [] :=
  rfl

theorem alistUpdate_cons (key : String) (f : α → α) (p : String × α) (t : List (String × α)) :
    alistUpdate key f (p :: t)
      = (if p.1 = key then (p.1, f p.2) else p) :: alistUpdate key f t :=
  rfl

theorem alistFind_append_right {l₁ l₂ : List (String × α)} {k : String}
    (h : alistFind k l₁ = none) : alistFind k (l₁ ++ l₂) = alistFind k l₂ := by
  induction l₁ with
  | nil => rfl
  | cons p t ih =>
    by_cases hpk : p.1 = k
    · simp [alistFind, hpk] at h
    · simp [alistFind, hpk] at h ⊢
      exact ih h

theorem alistFind_append_left {l₁ l₂ : List (String × α)} {k : String} {v : α}
    (h : alistFind k l₁ = some v) : alistFind k (l₁ ++ l₂) = some v := by
  induction l₁ with
  | nil => simp [alistFind] at h
  | cons p t ih =>
    by_cases hpk : p.1 = k
    · simp [alistFind, hpk] at h ⊢
      exact h
    · simp [alistFind, hpk] at h ⊢
      exact ih h

theorem alistFind_update (key k : String) (f : α → α) (l : List (String × α)) :
    alistFind k (alistUpdate key f l)
      = if key = k then (alistFind k l).map f else alistFind k l := by
  induction l with
  | nil => by_cases h : key = k <;> simp [alistFind, alistUpdate_nil, h]
  | cons p t ih =>
    by_cases hkk : key = k
    · subst hkk
      have ih' : alistFind key (alistUpdate key f t) = (alistFind key t).map f := by
        simpa using ih
      by_cases hpk : p.1 = key
      · simp [alistUpdate_cons, alistFind, hpk]
      · simp [alistUpdate_cons, alistFind, hpk, ih']
    · have ih' : alistFind k (alistUpdate key f t) = alistFind k t := by
        simpa [hkk] using ih
      by_cases hpk : p.1 = key
      · have hp2 : ¬ p.1 = k := fun h => hkk (by rw [← hpk, h])
        simp [alistUpdate_cons, alistFind, hpk, hp2, hkk, ih']
      · by_cases hp2 : p.1 = k
        · have hkk2 : ¬ k = key := fun h => hkk h.symm
          simp [alistUpdate_cons, alistFind, hpk, hp2, hkk, hkk2]
        · simp [alistUpdate_cons, alistFind, hpk, hp2, hkk, ih']

theorem alistUpdate_keys (key : String) (f : α → α) (l : List (String × α)) :
    (alistUpdate key f l).map Prod.fst = l.map Prod.fst := by
  induction l with
  | nil => rfl
  | cons p t ih =>
    by_cases hpk : p.1 = key <;> simp [alistUpdate_cons, hpk, ih]

theorem alistFind_none_of_not_mem {k : String} {l : List (String × α)}
    (h : k ∉ l.map Prod.fst) : alistFind k l = none := by
  induction l with
  | nil => rfl
  | cons p t ih =>
    simp only [List.map_cons, List.mem_cons] at h
    push_neg at h
    have hpk : ¬ p.1 = k := fun he => h.1 he.symm
    simp [alistFind, hpk]
    exact ih h.2

theorem not_mem_of_alistFind_none {k : String} {l : List (String × α)}
    (h : alistFind k l = none) : k ∉ l.map Prod.fst := by
  induction l with
  | nil => simp
  | cons p t ih =>
    by_cases hpk : p.1 = k
    · simp [alistFind, hpk] at h
    · simp [alistFind, hpk] at h
      simp [ih h]
      exact fun he => hpk he.symm

theorem alistUpdate_mem {key : String} {f : α → α} {l : List (String × α)} {p : String × α}
    (hp : p ∈ alistUpdate key f l) :
    p ∈ l ∨ ∃ q, q ∈ l ∧ q.1 = key ∧ p = (q.1, f q.2) := by
  induction l with
  | nil => simp [alistUpdate] at hp
  | cons q t ih =>
    rw [alistUpdate_cons] at hp
    rcases List.mem_cons.mp hp with hp | hp
    · by_cases hq1 : q.1 = key
      · rw [if_pos hq1] at hp
        exact Or.inr ⟨q, List.mem_cons_self _ _, hq1, hp⟩
      · rw [if_neg hq1] at hp
        exact Or.inl (hp ▸ List.mem_cons_self _ _)
    · rcases ih hp with h | ⟨q', hq', hk', hp'⟩
      · exact Or.inl (List.mem_cons_of_mem _ h)
      · exact Or.inr ⟨q', List.mem_cons_of_mem _ hq', hk', hp'⟩

theorem alistFind_mem {k : String} {v : α} {l : List (String × α)}
    (h : alistFind k l = some v) : (k, v) ∈ l := by
  induction l with
  | nil => simp [alistFind] at h
  | cons p t ih =>
    by_cases hpk : p.1 = k
    · simp [alistFind, hpk] at h
      refine List.mem_cons.mpr (Or.inl ?_)
      rw [← hpk, ← h]
    · simp [alistFind, hpk] at h
      exact List.mem_cons_of_mem _ (ih h)

/-! ## The cross-variant fold invariant -/

theorem variantInsert_inv {acc : List (String × Scored)} {occs : List Scored}
    (r : Scored) (h : accInv acc occs) : accInv (variantInsert acc r) (occs ++ [r]) := by
  obtain ⟨hnd, hkey, hmax, hcov⟩ := h
  unfold variantInsert
  cases hfind : alistFind r.chunk.id acc with
  | none =>
    refine ⟨?_, ?_, ?_, ?_⟩
    · simp only [List.map_append, List.map_cons, List.map_nil]
      refine List.Nodup.append hnd (List.nodup_singleton _) ?_
      intro a ha hb
      simp at hb
      subst hb
      exact not_mem_of_alistFind_none hfind ha
    · intro p hp
      rcases List.mem_append.mp hp with hp | hp
      · exact hkey p hp
      · simp at hp
        subst hp
        rfl
    · intro id v hv
      cases hacc : alistFind id acc with
      | some w =>
        rw [alistFind_append_left hacc] at hv
        have hwv : w = v := by injection hv
        subst hwv
        obtain ⟨hmem, hm⟩ := hmax id w hacc
        refine ⟨List.mem_append_left _ hmem, ?_⟩
        intro o ho hid
        rcases List.mem_append.mp ho with ho | ho
        · exact hm o ho hid
        · simp at ho
          subst ho
          rw [hid] at hfind
          rw [hfind] at hacc
          exact absurd hacc (by simp)
      | none =>
        rw [alistFind_append_right hacc] at hv
        by_cases hid : r.chunk.id = id
        · simp [alistFind, hid] at hv
          subst hv
          refine ⟨List.mem_append_right _ (by simp), ?_⟩
          intro o ho hido
          rcases List.mem_append.mp ho with ho | ho
          · have := hcov o ho
            rw [hido, hacc] at this
            simp at this
          · simp at ho
            subst ho
            exact le_refl _
        · simp [alistFind, hid] at hv
    · intro o ho
      rcases List.mem_append.mp ho with ho | ho
      · have := hcov o ho
        cases hv : alistFind o.chunk.id acc with
        | none => rw [hv] at this; simp at this
        | some w => rw [alistFind_append_left hv]; simp
      · simp at ho
        subst ho
        rw [alistFind_append_right hfind]
        simp [alistFind]
  | some existing =>
    show accInv
      (if existing.rrf_score < r.rrf_score then
        alistUpdate r.chunk.id (fun _ => r) acc
      else acc) (occs ++ [r])
    by_cases hlt : existing.rrf_score < r.rrf_score
    · rw [if_pos hlt]
      refine ⟨?_, ?_, ?_, ?_⟩
      · rw [alistUpdate_keys]
        exact hnd
      · intro p hp
        rcases alistUpdate_mem hp with hp | ⟨q, hq, hq1, hqp⟩
        · exact hkey p hp
        · rw [hqp]
          exact hq1.symm
      · intro id v hv
        rw [alistFind_update] at hv
        by_cases hid : r.chunk.id = id
        · rw [if_pos hid] at hv
          rw [← hid, hfind] at hv
          simp at hv
          subst hv
          refine ⟨List.mem_append_right _ (by simp), ?_⟩
          intro o ho hido
          rcases List.mem_append.mp ho with ho | ho
          · have := (hmax r.chunk.id existing hfind).2 o ho (hid ▸ hido)
            exact le_of_lt (lt_of_le_of_lt this hlt)
          · simp at ho
            subst ho
            exact le_refl _
        · rw [if_neg hid] at hv
          obtain ⟨hmem, hm⟩ := hmax id v hv
          refine ⟨List.mem_append_left _ hmem, ?_⟩
          intro o ho hido
          rcases List.mem_append.mp ho with ho | ho
          · exact hm o ho hido
          · simp at ho
            subst ho
            exact absurd hido hid
      · intro o ho
        rw [alistFind_update]
        by_cases hid : r.chunk.id = o.chunk.id
        · rw [if_pos hid, ← hid, hfind]
          simp
        · rw [if_neg hid]
          rcases List.mem_append.mp ho with ho | ho
          · exact hcov o ho
          · simp at ho
            subst ho
            exact absurd rfl hid
    · rw [if_neg hlt]
      refine ⟨hnd, hkey, ?_, ?_⟩
      · intro id v hv
        obtain ⟨hmem, hm⟩ := hmax id v hv
        refine ⟨List.mem_append_left _ hmem, ?_⟩
        intro o ho hido
        rcases List.mem_append.mp ho with ho | ho
        · exact hm o ho hido
        · simp at ho
          subst ho
          rw [hido] at hfind
          rw [hv] at hfind
          have hve : v = existing := by injection hfind
          rw [hve]
          exact le_of_not_lt hlt
      · intro o ho
        rcases List.mem_append.mp ho with ho | ho
        · exact hcov o ho
        · simp at ho
          subst ho
          rw [hfind]
          simp

theorem foldl_variantInsert_inv (l : List Scored) :
    ∀ (acc : List (String × Scored)) (occs : List Scored), accInv acc occs →
      accInv (l.foldl variantInsert acc) (occs ++ l) := by
  induction l with
  | nil => intro acc occs h; simpa using h
  | cons r t ih =>
    intro acc occs h
    have := ih (variantInsert acc r) (occs ++ [r]) (variantInsert_inv r h)
    simpa using this

theorem variant_accumulate_inv (variants : List (List Scored)) :
    accInv (variant_accumulate variants) variants.flatten := by
  have base : accInv [] [] := by
    refine ⟨List.nodup_nil, by simp, ?_, by simp⟩
    intro id v hv
    simp [alistFind] at hv
  have main : ∀ (vs : List (List Scored)) (acc : List (String × Scored))
      (occs : List Scored), accInv acc occs →
      accInv (vs.foldl (fun all_results merged => merged.foldl variantInsert all_results) acc)
        (occs ++ vs.flatten) := by
    intro vs
    induction vs with
    | nil => intro acc occs h; simpa using h
    | cons l t ih =>
      intro acc occs h
      have := ih (l.foldl variantInsert acc) (occs ++ l) (foldl_variantInsert_inv l acc occs h)
      simpa using this
  simpa [variant_accumulate] using main variants [] [] base

/-! ## Claim theorems -/

example : classify "APIRouter" = .SPECIFIC_TERM := by decide
example : classify "routing" = .CONCEPT := by decide
example : classify "async endpoint function" = .CODE_PATTERN := by decide
example : classify "how to add middleware" = .SEMANTIC := by decide

/-- **C1** (code bug).  The claim states that a candidate appearing only
in the dense list has `fusion_score = dense_weight / (r + k)`.  On the
code that fails: `_merge_results` adds the vector RRF contribution only
in the `else` branch, so a dense-only candidate at rank 0 with weight 1
and `k = 30` gets `rrf_score = 0`, not `1/30`.  A candidate present in
both lists does receive the claimed sum of contributions. -/
theorem C1_dense_only_candidate_scores_zero :
    merge_results 30 [] [docA] 1 1 = [⟨docA, 0, none, some 0, none⟩]
    ∧ merge_results 30 [docB] [docB] 1 1
        = [⟨docB, rrf_score 30 0 * 1 + rrf_score 30 0 * 1, some 0, some 0, none⟩]
    ∧ rrf_score 30 0 * 1 ≠ 0 := by
  refine ⟨rfl, ?_, by norm_num [rrf_score]⟩
  simp [merge_results, bm25Step, vectorStep, alistFind, alistUpdate, rrf_score, docB,
    List.insertionSort, List.orderedInsert]

/-- **C2** (counterexample).  With a configured reranker that raises and
a non-empty merged pool, `HybridSearch.search` does not return the
pre-rerank order: there is no try/except, so the exception propagates
and the call aborts with an error. -/
theorem C2_counterexample :
    hybrid_search H_failing_reranker "some query" 5 true false = .error () :=
  rfl

/-- **C2** (amended).  A reranker exception is not absorbed by
`HybridSearch.search`: whenever reranking is enabled, a reranker is
configured, the fused pool is non-empty and the reranker raises, the
whole call raises.  One layer up, `RAGPipeline.query` catches the
exception and returns empty sources with error `retrieval_error` — not
the pre-rerank fusion order the claim describes. -/
theorem C2_rerank_exception_propagates :
    (∀ (H : HybridModel) (query : String) (n : ℕ) (ur : Bool),
        H.hasReranker = true →
        (∀ q l t, H.rerankFn q l t = .error ()) →
        hybrid_fused H default_config query n ≠ [] →
        hybrid_search H query n false ur = .error ())
    ∧ (∀ (search : String → ℕ → Except Unit (List Scored)) (q : String) (n : ℕ),
        ¬(q = "" ∨ pyStrip q = "") → q.length ≤ 1000 →
        search q n = .error () →
        rag_query search q n = ([], some "retrieval_error")) := by
  constructor
  · intro H query n ur hR hfail hne
    have hne' := hne
    simp only [default_config] at hne'
    simp [hybrid_search, default_config, hR, hfail, hne']
  · intro search q n hq hlen hs
    have h1 : ¬(q = "") := fun h => hq (Or.inl h)
    have h2 : ¬(pyStrip q = "") := fun h => hq (Or.inr h)
    simp [rag_query, h1, h2, Nat.not_lt.mpr hlen, hs]

/-- Witness for `C2_rerank_exception_propagates` at a concrete instance
and a concrete failing search collaborator. -/
theorem C2_rerank_exception_propagates_witness :
    hybrid_search H_failing_reranker "some query" 5 false false = .error ()
    ∧ rag_query (fun _ _ => .error ()) "q" 5 = ([], some "retrieval_error") :=
  ⟨C2_rerank_exception_propagates.1 H_failing_reranker "some query" 5 false rfl
      (fun _ _ _ => rfl) (by decide),
   C2_rerank_exception_propagates.2 (fun _ _ => .error ()) "q" 5 (by decide) (by decide) rfl⟩

/-- **C3** (confirmed).  `classify` is a total function evaluated in the
fixed priority order SPECIFIC_TERM, SEMANTIC, CODE_PATTERN, with CONCEPT
as the default, first match winning; and the three quoted examples
evaluate as claimed. -/
theorem C3_classifier_priority_order :
    (∀ q, is_specific_term (pyStrip q) = true → classify q = .SPECIFIC_TERM)
    ∧ (∀ q, is_specific_term (pyStrip q) = false →
        is_semantic_query (pyStrip q) = true → classify q = .SEMANTIC)
    ∧ (∀ q, is_specific_term (pyStrip q) = false →
        is_semantic_query (pyStrip q) = false →
        is_code_pattern (pyStrip q) = true → classify q = .CODE_PATTERN)
    ∧ (∀ q, is_specific_term (pyStrip q) = false →
        is_semantic_query (pyStrip q) = false →
        is_code_pattern (pyStrip q) = false → classify q = .CONCEPT)
    ∧ classify "APIRouter" = .SPECIFIC_TERM
    ∧ classify "routing" = .CONCEPT
    ∧ classify "async endpoint function" = .CODE_PATTERN := by
  refine ⟨?_, ?_, ?_, ?_, by decide, by decide, by decide⟩
  · intro q h; simp [classify, h]
  · intro q h₁ h₂; simp [classify, h₁, h₂]
  · intro q h₁ h₂ h₃; simp [classify, h₁, h₂, h₃]
  · intro q h₁ h₂ h₃; simp [classify, h₁, h₂, h₃]

/-- Witness for `C3_classifier_priority_order`: each rule applied at a
concrete query discharging its hypotheses. -/
theorem C3_classifier_priority_order_witness :
    classify "user_auth" = .SPECIFIC_TERM
    ∧ classify "what is dependency injection" = .SEMANTIC
    ∧ classify "async generator" = .CODE_PATTERN
    ∧ classify "database" = .CONCEPT :=
  ⟨C3_classifier_priority_order.1 "user_auth" (by decide),
   C3_classifier_priority_order.2.1 "what is dependency injection" (by decide) (by decide),
   C3_classifier_priority_order.2.2.1 "async generator" (by decide) (by decide) (by decide),
   C3_classifier_priority_order.2.2.2.1 "database" (by decide) (by decide) (by decide)⟩

/-- **C4** (code bug).  Route selection is deterministic and HOW_TO
preempts COMPLEX: every query containing a how-to indicator routes to
`how_to`, and "how to authenticate users" does so although it also
satisfies the COMPLEX conditions.  But the claim's "reranking disabled"
fails on the code: `HybridSearch.search` never reads its `use_reranker`
argument, so with a reranker configured the HOW_TO route reranks — a
raising reranker aborts the call, and the modelled reranker writes
`rerank_score` into the returned results. -/
theorem C4_howto_preempts_complex_but_reranks :
    (∀ q, is_how_to_query q = true → determine_route q = "how_to")
    ∧ determine_route (pyStrip (pyLower "how to authenticate users")) = "how_to"
    ∧ is_complex_query (pyStrip (pyLower "how to authenticate users")) = true
    ∧ adaptive_search A_failing_reranker "how to authenticate users" 10 = .error ()
    ∧ adaptive_search A_const_reranker "how to authenticate users" 10
        = .ok (.fromHybrid [⟨docA, 0, none, some 0, some 7⟩]) := by
  refine ⟨?_, by decide, by decide, rfl, rfl⟩
  intro q h; simp [determine_route, h]

/-- Witness for `C4_howto_preempts_complex_but_reranks`: the route rule
applied at a concrete how-to query. -/
theorem C4_howto_preempts_complex_but_reranks_witness :
    determine_route "how do i add auth" = "how_to" :=
  C4_howto_preempts_complex_but_reranks.1 "how do i add auth" (by decide)

/-- **C5** (confirmed).  In the cross-variant merge of
`HybridSearch.search`, each id is kept once, the stored record is one of
the per-variant occurrences (so per-variant scores are never summed),
its id matches, and its `fusion_score` is maximal among all occurrences
of that id. -/
theorem C5_cross_variant_merge_keeps_max (variants : List (List Scored)) :
    ((variant_accumulate variants).map Prod.fst).Nodup
    ∧ (∀ id v, alistFind id (variant_accumulate variants) = some v →
        v ∈ variants.flatten
        ∧ v.chunk.id = id
        ∧ ∀ o ∈ variants.flatten, o.chunk.id = id → o.rrf_score ≤ v.rrf_score)
    ∧ ∀ o ∈ variants.flatten, (alistFind o.chunk.id (variant_accumulate variants)).isSome := by
  obtain ⟨hnd, hkey, hmax, hcov⟩ := variant_accumulate_inv variants
  refine ⟨hnd, ?_, hcov⟩
  intro id v hv
  obtain ⟨hmem, hm⟩ := hmax id v hv
  exact ⟨hmem, hkey (id, v) (alistFind_mem hv), hm⟩

/-- A fused record for the `C5` witness: id "B" with score 1. -/
def sB1 : Scored :=
  ⟨docB, 1, none, some 0, none⟩

/-- A fused record for the `C5` witness: id "B" with score 2. -/
def sB2 : Scored :=
  ⟨docB, 2, none, some 0, none⟩

/-- Witness for `C5_cross_variant_merge_keeps_max`: two variants
producing the same id with scores 1 and 2; the merge keeps the score-2
occurrence. -/
theorem C5_cross_variant_merge_keeps_max_witness :
    sB2 ∈ [[sB1], [sB2]].flatten
    ∧ sB2.chunk.id = "B"
    ∧ ∀ o ∈ [[sB1], [sB2]].flatten, o.chunk.id = "B" → o.rrf_score ≤ sB2.rrf_score :=
  (C5_cross_variant_merge_keeps_max [[sB1], [sB2]]).2.1 "B" sB2 (by decide)

/-- Ids of the score-assignment step of `Reranker.rerank`: writing
`rerank_score` does not change any candidate id. -/
theorem map_id_zip_scores (results : List Scored) (scores : List ℚ)
    (h : results.length ≤ scores.length) :
    ((results.zip scores).map fun p => { p.1 with rerank_score := some p.2 }).map
      (fun r => r.chunk.id) = results.map fun r => r.chunk.id := by
  induction results generalizing scores with
  | nil => simp
  | cons a t ih =>
    cases scores with
    | nil => simp at h
    | cons s ss =>
      simp only [List.length_cons, Nat.add_le_add_iff_right] at h
      simp [ih ss h]

instance : IsTotal Scored rerankGE :=
  ⟨fun a b => le_total (b.rerank_score.getD 0) (a.rerank_score.getD 0)⟩

instance : IsTrans Scored rerankGE :=
  ⟨fun _ _ _ h₁ h₂ => le_trans h₂ h₁⟩

/-- **C8** (confirmed).  `Reranker.rerank` with `top_k ≥ len(input)`
returns a permutation of the input ids (truncation after sorting is then
the identity); an empty input returns `[]` for every cross-encoder, so
no model invocation can influence it; and every output is sorted by
descending `rerank_score`. -/
theorem C8_rerank_preserves_id_set :
    (∀ (predict : String × String → ℚ) (query : String) (results : List Scored) (t : ℕ),
        results.length ≤ t →
        ((rerank predict query results (some t)).map fun r => r.chunk.id).Perm
          (results.map fun r => r.chunk.id))
    ∧ (∀ (predict : String × String → ℚ) (query : String) (t : Option ℕ),
        rerank predict query [] t = [])
    ∧ (∀ (predict : String × String → ℚ) (query : String) (results : List Scored)
        (t : Option ℕ), List.Sorted rerankGE (rerank predict query results t)) := by
  refine ⟨?_, ?_, ?_⟩
  · intro predict query results t hle
    by_cases hres : results.isEmpty
    · have h0 : results = [] := by
        cases results with
        | nil => rfl
        | cons a l => simp at hres
      subst h0
      simp [rerank]
    · have hne : results ≠ [] := by
        intro h0
        subst h0
        simp at hres
      have ht : ¬ t = 0 := by
        intro h0
        subst h0
        exact hne (List.length_eq_zero.mp (Nat.le_zero.mp hle))
      have hslen : results.length ≤ ((create_pairs query results).map predict).length := by
        simp [create_pairs]
      have hlen2 : (List.insertionSort rerankGE
          ((results.zip ((create_pairs query results).map predict)).map
            fun p => { p.1 with rerank_score := some p.2 })).length ≤ t := by
        rw [List.length_insertionSort, List.length_map, List.length_zip]
        exact le_trans (Nat.min_le_left _ _) hle
      have hperm := (List.perm_insertionSort rerankGE
          ((results.zip ((create_pairs query results).map predict)).map
            fun p => { p.1 with rerank_score := some p.2 })).map
          (fun r => r.chunk.id)
      rw [map_id_zip_scores _ _ hslen] at hperm
      simp only [rerank, hres, Bool.false_eq_true, if_false, ht, ne_eq,
        not_false_eq_true, if_true]
      rw [List.take_of_length_le hlen2]
      exact hperm
  · intro predict query t
    simp [rerank]
  · intro predict query results t
    by_cases hres : results.isEmpty
    · simp [rerank, hres, List.Sorted]
    · have hsorted : List.Sorted rerankGE
          (List.insertionSort rerankGE
            ((results.zip ((create_pairs query results).map predict)).map
              fun p => { p.1 with rerank_score := some p.2 })) :=
        List.sorted_insertionSort rerankGE _
      simp only [rerank, hres, Bool.false_eq_true, if_false]
      cases t with
      | none => exact hsorted
      | some t =>
        by_cases ht : t = 0
        · simp only [ht, ne_eq, not_true_eq_false, if_false]
          exact hsorted
        · simp only [ht, ne_eq, not_false_eq_true, if_true]
          exact List.Pairwise.sublist (List.take_sublist _ _) hsorted

/-- Witness for `C8_rerank_preserves_id_set`: the id-set preservation at
a concrete one-candidate rerank with `top_k = 1`. -/
theorem C8_rerank_preserves_id_set_witness :
    ((rerank (fun _ => 5) "q" [sB1] (some 1)).map fun r => r.chunk.id).Perm
      ([sB1].map fun r => r.chunk.id) :=
  C8_rerank_preserves_id_set.1 (fun _ => 5) "q" [sB1] 1 (by decide)

/-! ## Lemmas for the embedding-cache claim -/

theorem scatterSet_nil (init : List V) : scatterSet init [] = init :=
  rfl

theorem scatterSet_cons (init : List V) (u : ℕ × V) (rest : List (ℕ × V)) :
    scatterSet init (u :: rest) = scatterSet (init.set u.1 u.2) rest :=
  rfl

theorem scatterSet_length (updates : List (ℕ × V)) :
    ∀ init : List V, (scatterSet init updates).length = init.length := by
  induction updates with
  | nil => intro init; rfl
  | cons u rest ih =>
    intro init
    rw [scatterSet_cons, ih, List.length_set]

theorem scatterSet_getElem?_not_mem (updates : List (ℕ × V)) :
    ∀ (init : List V) (i : ℕ), i ∉ updates.map Prod.fst →
      (scatterSet init updates)[i]? = init[i]? := by
  induction updates with
  | nil => intro init i _; rfl
  | cons u rest ih =>
    intro init i h
    simp only [List.map_cons, List.mem_cons] at h
    push_neg at h
    rw [scatterSet_cons, ih _ _ h.2, List.getElem?_set_ne (Ne.symm h.1)]

theorem scatterSet_getElem?_mem (updates : List (ℕ × V)) :
    ∀ (init : List V) (i : ℕ) (v : V),
      (updates.map Prod.fst).Nodup → (i, v) ∈ updates → i < init.length →
      (scatterSet init updates)[i]? = some v := by
  induction updates with
  | nil => intro init i v _ hmem _; simp at hmem
  | cons u rest ih =>
    intro init i v hnd hmem hlt
    simp only [List.map_cons, List.nodup_cons] at hnd
    rcases List.mem_cons.mp hmem with hm | hm
    · rw [scatterSet_cons]
      have hni : i ∉ rest.map Prod.fst := by
        rw [← hm] at hnd
        exact hnd.1
      rw [scatterSet_getElem?_not_mem rest _ _ hni, ← hm]
      exact List.getElem?_set_self hlt
    · rw [scatterSet_cons]
      exact ih _ _ _ hnd.2 hm (by rw [List.length_set]; exact hlt)

theorem filterMap_pair_keys {σ τ β : Type} (g : σ × τ → Option β) (l : List (σ × τ)) :
    ((l.filterMap fun p => (g p).map fun v => (p.1, v)).map Prod.fst)
      = (l.filter fun p => (g p).isSome).map Prod.fst := by
  induction l with
  | nil => rfl
  | cons p t ih =>
    cases hg : g p with
    | none => simp [List.filterMap_cons, List.filter_cons, hg, ih]
    | some v => simp [List.filterMap_cons, List.filter_cons, hg, ih]

/-- The output buffer of `Embedder.embed`, unfolded. -/
theorem embed_fst (zero : V) (enc : String → V) (st : EmbedderState V) (texts : List String) :
    (embed zero enc st texts).1
      = scatterSet (List.replicate texts.length zero)
          ((texts.enum.filterMap fun p =>
              (alistFind (text_hash p.2) st.cache).map fun v => (p.1, v))
            ++ ((texts.enum.filter fun p =>
                  (alistFind (text_hash p.2) st.cache).isNone).map Prod.fst).zip
               (((texts.enum.filter fun p =>
                  (alistFind (text_hash p.2) st.cache).isNone).map Prod.snd).map enc)) :=
  rfl

/-- The batch-order property of `Embedder.embed`: under the cache
invariant (every cached value is the encoding of its key), the output
buffer lists the embeddings in input order. -/
theorem embed_ordered (V : Type) (zero : V) (enc : String → V) (st : EmbedderState V)
    (texts : List String) (hcache : ∀ p ∈ st.cache, p.2 = enc p.1) :
    (embed zero enc st texts).1 = texts.map enc := by
  rw [embed_fst]
  have hzip : (((texts.enum.filter fun p =>
          (alistFind (text_hash p.2) st.cache).isNone).map Prod.fst).zip
        (((texts.enum.filter fun p =>
          (alistFind (text_hash p.2) st.cache).isNone).map Prod.snd).map enc))
      = (texts.enum.filter fun p => (alistFind (text_hash p.2) st.cache).isNone).map
          fun p => (p.1, enc p.2) := by
    rw [List.map_map, List.zip_map']
    rfl
  rw [hzip]
  have hkeys : (((texts.enum.filterMap fun p =>
        (alistFind (text_hash p.2) st.cache).map fun v => (p.1, v))
      ++ (texts.enum.filter fun p => (alistFind (text_hash p.2) st.cache).isNone).map
          fun p => (p.1, enc p.2)).map Prod.fst).Nodup := by
    rw [List.map_append]
    refine List.Nodup.append ?_ ?_ ?_
    · rw [filterMap_pair_keys]
      refine List.Nodup.sublist (List.Sublist.map Prod.fst (List.filter_sublist _)) ?_
      rw [List.enum_map_fst]
      exact List.nodup_range _
    · have hmm2 : ((texts.enum.filter fun p =>
          (alistFind (text_hash p.2) st.cache).isNone).map
          (fun p => (p.1, enc p.2))).map Prod.fst
          = (texts.enum.filter fun p =>
              (alistFind (text_hash p.2) st.cache).isNone).map Prod.fst := by
        rw [List.map_map]
        rfl
      rw [hmm2]
      refine List.Nodup.sublist (List.Sublist.map Prod.fst (List.filter_sublist _)) ?_
      rw [List.enum_map_fst]
      exact List.nodup_range _
    · intro a ha hb
      rcases List.mem_map.mp ha with ⟨c, hc, hca⟩
      rcases List.mem_filterMap.mp hc with ⟨p, hp, hpc⟩
      rcases List.mem_map.mp hb with ⟨w, hw, hwa⟩
      rcases List.mem_map.mp hw with ⟨u, hu, huw⟩
      obtain ⟨hu1, hu2⟩ := List.mem_filter.mp hu
      cases halist : alistFind (text_hash p.2) st.cache with
      | none => rw [halist] at hpc; simp at hpc
      | some v =>
        rw [halist] at hpc
        simp at hpc
        have hc1 : c.1 = p.1 := by rw [← hpc]
        have hua : u.1 = a := by rw [← huw] at hwa; exact hwa
        have hpa : p.1 = a := by rw [← hca, hc1]
        obtain ⟨hlp, hxp⟩ := List.mem_enum hp
        obtain ⟨hlu, hxu⟩ := List.mem_enum hu1
        have hup : u.2 = p.2 := by
          rw [hxu, hxp]
          congr 1
          rw [hua, hpa]
        rw [hup, halist] at hu2
        simp at hu2
  apply List.ext_getElem?
  intro n
  by_cases hn : n < texts.length
  · have hn2 : n < texts.enum.length := by
      rw [List.enum_length]
      exact hn
    have henum : ((n : ℕ), texts[n]) ∈ texts.enum := by
      have hge : texts.enum[n] = (n, texts[n]) := List.getElem_enum texts n hn2
      rw [← hge]
      exact List.getElem_mem hn2
    have hrhs : (texts.map enc)[n]? = some (enc texts[n]) := by
      rw [List.getElem?_map, List.getElem?_eq_getElem hn]
      rfl
    rw [hrhs]
    cases hfind : alistFind (text_hash texts[n]) st.cache with
    | some v =>
      have hv : v = enc texts[n] := by
        have := hcache _ (alistFind_mem hfind)
        simpa [text_hash] using this
      have hmem : ((n : ℕ), v) ∈ (texts.enum.filterMap fun p =>
          (alistFind (text_hash p.2) st.cache).map fun v => (p.1, v)) :=
        List.mem_filterMap.mpr ⟨(n, texts[n]), henum, by rw [hfind]; rfl⟩
      rw [scatterSet_getElem?_mem _ _ _ _ hkeys (List.mem_append_left _ hmem)
        (by rw [List.length_replicate]; exact hn)]
      rw [hv]
    | none =>
      have hu : ((n : ℕ), texts[n]) ∈ texts.enum.filter fun p =>
          (alistFind (text_hash p.2) st.cache).isNone := by
        refine List.mem_filter.mpr ⟨henum, ?_⟩
        simp [hfind]
      have hmem : ((n : ℕ), enc texts[n]) ∈ (texts.enum.filter fun p =>
          (alistFind (text_hash p.2) st.cache).isNone).map fun p => (p.1, enc p.2) :=
        List.mem_map.mpr ⟨(n, texts[n]), hu, rfl⟩
      rw [scatterSet_getElem?_mem _ _ _ _ hkeys (List.mem_append_right _ hmem)
        (by rw [List.length_replicate]; exact hn)]
  · push_neg at hn
    rw [List.getElem?_eq_none (by rw [scatterSet_length, List.length_replicate]; exact hn),
      List.getElem?_eq_none (by rw [List.length_map]; exact hn)]

/-- **C9** (confirmed).  Embedding the same text twice from a fresh
cache issues exactly one batched model call (the second call is a cache
hit, zero model calls); and under the cache invariant, a mixed
cached/uncached batch returns the embeddings in input order. -/
theorem C9_embedding_cache_hits_and_order :
    (∀ (V : Type) (zero : V) (enc : String → V) (size : ℕ) (t : String), 1 ≤ size →
        (embed zero enc ⟨[], size⟩ [t]).2.2 = 1
        ∧ (embed zero enc (embed zero enc ⟨[], size⟩ [t]).2.1 [t]).2.2 = 0)
    ∧ (∀ (V : Type) (zero : V) (enc : String → V) (st : EmbedderState V)
        (texts : List String), (∀ p ∈ st.cache, p.2 = enc p.1) →
        (embed zero enc st texts).1 = texts.map enc) := by
  constructor
  · intro V zero enc size t h
    have h0 : ¬ (size ≤ 0) := by omega
    constructor
    · rfl
    · have hstate : (embed zero enc ⟨[], size⟩ [t]).2.1 = ⟨[(t, enc t)], size⟩ := by
        show update_cache ⟨[], size⟩ (text_hash t) (enc t) = _
        simp [update_cache, dictInsert, alistFind, text_hash, h0]
      rw [hstate]
      simp [embed, alistFind, text_hash]
  · intro V zero enc st texts hcache
    exact embed_ordered V zero enc st texts hcache

/-- Witness for `C9_embedding_cache_hits_and_order`: a concrete fresh
cache of capacity 5 with text "x", and a concrete two-text batch with
one cached entry. -/
theorem C9_embedding_cache_hits_and_order_witness :
    ((embed (0 : ℚ) (fun _ => 3) ⟨[], 5⟩ ["x"]).2.2 = 1
      ∧ (embed (0 : ℚ) (fun _ => 3) (embed (0 : ℚ) (fun _ => 3) ⟨[], 5⟩ ["x"]).2.1
          ["x"]).2.2 = 0)
    ∧ (embed (0 : ℚ) (fun _ => 3) ⟨[("a", 3)], 10⟩ ["b", "a"]).1
        = ["b", "a"].map (fun _ => (3 : ℚ)) :=
  ⟨C9_embedding_cache_hits_and_order.1 ℚ 0 (fun _ => 3) 5 "x" (by decide),
   C9_embedding_cache_hits_and_order.2 ℚ 0 (fun _ => 3) ⟨[("a", 3)], 10⟩ ["b", "a"]
     (by
       intro p hp
       simp at hp
       rw [hp])⟩

/-! ## Lemmas for the heap model of `Reranker.rerank` -/

theorem heapWrite_length (l : List (ℕ × ℚ)) :
    ∀ store : List Scored,
      (l.foldl (fun st pr =>
        st.set pr.1 { st.getD pr.1 defaultScored with rerank_score := some pr.2 }) store).length
      = store.length := by
  induction l with
  | nil => intro store; rfl
  | cons u rest ih =>
    intro store
    rw [List.foldl_cons, ih, List.length_set]

theorem heapWrite_frame (l : List (ℕ × ℚ)) :
    ∀ (store : List Scored) (j : ℕ), j ∉ l.map Prod.fst →
      (l.foldl (fun st pr =>
        st.set pr.1 { st.getD pr.1 defaultScored with rerank_score := some pr.2 }) store)[j]?
      = store[j]? := by
  induction l with
  | nil => intro store j _; rfl
  | cons u rest ih =>
    intro store j h
    simp only [List.map_cons, List.mem_cons] at h
    push_neg at h
    rw [List.foldl_cons, ih _ _ h.2, List.getElem?_set_ne (Ne.symm h.1)]

theorem heapWrite_isSome (l : List (ℕ × ℚ)) :
    ∀ (store : List Scored) (p : ℕ),
      (l.map Prod.fst).Nodup → p ∈ l.map Prod.fst → p < store.length →
      (((l.foldl (fun st pr =>
          st.set pr.1 { st.getD pr.1 defaultScored with rerank_score := some pr.2 }) store).getD
        p defaultScored).rerank_score).isSome := by
  induction l with
  | nil => intro store p _ hmem _; simp at hmem
  | cons u rest ih =>
    intro store p hnd hmem hlt
    simp only [List.map_cons, List.nodup_cons] at hnd
    simp only [List.map_cons, List.mem_cons] at hmem
    rcases hmem with hm | hm
    · subst hm
      rw [List.foldl_cons, List.getD_eq_getElem?_getD, heapWrite_frame rest _ _ hnd.1,
        List.getElem?_set_self hlt]
      simp
    · rw [List.foldl_cons]
      exact ih _ _ hnd.2 hm (by rw [List.length_set]; exact hlt)

/-- The heap returned by `rerank_heap` on a non-empty input, unfolded. -/
theorem rerank_heap_fst (predict : String × String → ℚ) (query : String)
    (store : List Scored) (ptrs : List ℕ) (t : Option ℕ) (hne : ptrs ≠ []) :
    (rerank_heap predict query store ptrs t).1
      = (ptrs.zip ((create_pairs query
            (ptrs.map fun p => store.getD p defaultScored)).map predict)).foldl
          (fun st pr =>
            st.set pr.1 { st.getD pr.1 defaultScored with rerank_score := some pr.2 })
          store := by
  have hres : ¬ (ptrs.isEmpty = true) := by
    cases ptrs with
    | nil => exact absurd rfl hne
    | cons a l => simp
  unfold rerank_heap
  rw [if_neg hres]

/-- The address list returned by `rerank_heap` with `top_k = None` is a
permutation of the input addresses. -/
theorem rerank_heap_perm (predict : String × String → ℚ) (query : String)
    (store : List Scored) (ptrs : List ℕ) (hne : ptrs ≠ []) :
    (rerank_heap predict query store ptrs none).2.Perm ptrs := by
  have hres : ¬ (ptrs.isEmpty = true) := by
    cases ptrs with
    | nil => exact absurd rfl hne
    | cons a l => simp
  unfold rerank_heap
  rw [if_neg hres]
  exact List.perm_insertionSort _ _

/-- **C10** (confirmed).  `Reranker.rerank` mutates its input in place:
on a non-empty candidate list every caller-supplied dict gains a
`rerank_score` key (so a dict whose `rerank_score` was previously unset
is observably changed), dicts not passed in are untouched, and the
returned list (untruncated) is a permutation of the very same dict
objects. -/
theorem C10_rerank_mutates_input (predict : String × String → ℚ) (query : String)
    (store : List Scored) (ptrs : List ℕ) (t : Option ℕ)
    (hne : ptrs ≠ []) (hnd : ptrs.Nodup) (hval : ∀ p ∈ ptrs, p < store.length) :
    (∀ p ∈ ptrs,
        (((rerank_heap predict query store ptrs t).1.getD p defaultScored).rerank_score).isSome)
    ∧ (∀ j, j ∉ ptrs → (rerank_heap predict query store ptrs t).1[j]? = store[j]?)
    ∧ ((rerank_heap predict query store ptrs none).2.Perm ptrs)
    ∧ (∀ p ∈ ptrs, (store.getD p defaultScored).rerank_score = none →
        (rerank_heap predict query store ptrs t).1 ≠ store) := by
  have hlen : ptrs.length ≤ ((create_pairs query
      (ptrs.map fun p => store.getD p defaultScored)).map predict).length := by
    simp [create_pairs]
  have hmapfst : (ptrs.zip ((create_pairs query
      (ptrs.map fun p => store.getD p defaultScored)).map predict)).map Prod.fst = ptrs :=
    List.map_fst_zip _ _ hlen
  have hsome : ∀ p ∈ ptrs,
      (((rerank_heap predict query store ptrs t).1.getD p defaultScored).rerank_score).isSome := by
    intro p hp
    rw [rerank_heap_fst predict query store ptrs t hne]
    exact heapWrite_isSome _ _ _ (by rw [hmapfst]; exact hnd) (by rw [hmapfst]; exact hp)
      (hval p hp)
  refine ⟨hsome, ?_, ?_, ?_⟩
  · intro j hj
    rw [rerank_heap_fst predict query store ptrs t hne]
    exact heapWrite_frame _ _ _ (by rw [hmapfst]; exact hj)
  · exact rerank_heap_perm predict query store ptrs hne
  · intro p hp hnone heq
    have h1 := hsome p hp
    rw [heq, hnone] at h1
    simp at h1

/-- Witness for `C10_rerank_mutates_input`: a one-dict heap whose dict
is passed by address 0. -/
theorem C10_rerank_mutates_input_witness :
    (∀ p ∈ [0],
        (((rerank_heap (fun _ => 4) "q" [sB1] [0] none).1.getD p defaultScored).rerank_score).isSome)
    ∧ (∀ j, j ∉ [0] → (rerank_heap (fun _ => 4) "q" [sB1] [0] none).1[j]? = [sB1][j]?)
    ∧ ((rerank_heap (fun _ => 4) "q" [sB1] [0] none).2.Perm [0])
    ∧ (∀ p ∈ [0], ([sB1].getD p defaultScored).rerank_score = none →
        (rerank_heap (fun _ => 4) "q" [sB1] [0] none).1 ≠ [sB1]) :=
  C10_rerank_mutates_input (fun _ => 4) "q" [sB1] [0] none (by decide) (by decide)
    (by decide)

/-- **C6** (counterexample).  `HybridSearch.search` does not reject an
empty query: with a dense source that answers the empty query, retrieval
is performed and a non-empty result list is returned. -/
theorem C6_counterexample :
    hybrid_search H_dense "" 10 true false = .ok [⟨docA, 0, none, some 0, none⟩]
    ∧ ([⟨docA, 0, none, some 0, none⟩] : List Scored) ≠ [] :=
  ⟨rfl, by decide⟩

/-- **C6** (amended).  Empty-query rejection lives one layer up:
`RAGPipeline.query` returns empty sources with error `empty_query` for
an empty or whitespace-only question, for every search collaborator —
i.e. before any retrieval — while `HybridSearch.search` itself proceeds
to retrieval on the empty query. -/
theorem C6_empty_query_rejected_in_pipeline :
    (∀ (search : String → ℕ → Except Unit (List Scored)) (q : String) (n : ℕ),
        q = "" ∨ pyStrip q = "" → rag_query search q n = ([], some "empty_query"))
    ∧ hybrid_search H_dense "" 10 true false ≠ .ok [] := by
  constructor
  · intro search q n h
    rcases h with h | h <;> simp [rag_query, h]
  · intro h
    rw [show hybrid_search H_dense "" 10 true false
      = .ok [⟨docA, 0, none, some 0, none⟩] from rfl] at h
    exact absurd (Except.ok.inj h) (by decide)

/-- Witness for `C6_empty_query_rejected_in_pipeline`: the rejection at
a concrete whitespace-only question and a concrete search collaborator. -/
theorem C6_empty_query_rejected_in_pipeline_witness :
    rag_query (fun _ _ => .ok [⟨docA, 0, none, some 0, none⟩]) "   " 5
      = ([], some "empty_query") :=
  C6_empty_query_rejected_in_pipeline.1 _ "   " 5 (Or.inr (by decide))

/-- **C7** (code bug).  Searching a never-built lexical index does not
yield `[]`: since `__init__` always sets the `bm25` attribute (to
`None`), the `hasattr` guard never fires, and the call reaches
`None.get_scores`, raising `AttributeError` — for every scoring
collaborator, query and depth. -/
theorem C7_unbuilt_bm25_raises :
    (∀ (get_scores : List (List String) → List String → List ℚ)
        (q : String) (top_k : ℕ),
        bm25_search get_scores bm25_init q top_k = .error .attributeError)
    ∧ ∀ s, hasattr_bm25 s = true :=
  ⟨fun _ _ _ => rfl, fun _ => rfl⟩

end RagCode
